import Mathlib

/-
Verification of the VideoClipper segment planner (src/video_clipper.py).

Durations are modelled as rationals: the Python code manipulates the
duration reported by ffprobe with `+`, `min`, `//` and `%` only, and the
claims under verification are exact-arithmetic statements about those
operations.  The pure planning core (`create_segments`, `format_time`,
the output-name scheme) is embedded directly; the process-spawning
orchestration (`main`, `split_video`, `VideoClipper.__init__`) is embedded
as a function from an environment (does the input file exist, what does
ffprobe answer, which ffmpeg invocations succeed) to an exit code, a
trace of external side effects, and the list of output files produced.
-/

namespace VideoClipper

/-- Python's `%` on numbers with a nonzero divisor: `a % b = a - b * floor (a / b)`
(the sign of the result follows `b`). -/
def qmod (a b : ℚ) : ℚ := a - b * ⌊a / b⌋

/-- Python's `int()` on a number: truncation toward zero
(`num.div den` is integer T-division). -/
def pyInt (q : ℚ) : ℤ := q.num.tdiv (q.den : ℤ)

/-- A run of `k` zero characters, as used by zero-padding format specs. -/
def zeros (k : ℕ) : String := String.mk (List.replicate k ('0'))

/-- Little-endian decimal digits of `n`; the first argument is fuel
(`n` itself is always enough, since `n / 10 < n` for `n ≠ 0`). -/
def toDigitsRev : ℕ → ℕ → List ℕ
  | 0, _ => []
  | f + 1, n => if n = 0 then [] else n % 10 :: toDigitsRev f (n / 10)

/-- Decimal representation of a natural number (Python's `str` on a
nonnegative int). -/
def natRepr (n : ℕ) : String :=
  if n = 0 then "0" else String.mk ((toDigitsRev n n).reverse.map Nat.digitChar)

/-- Python's format spec `0{w}d` applied to a nonnegative integer:
the decimal digits, left-padded with zeros to width `w`. -/
def padNat (w : ℕ) (n : ℕ) : String := zeros (w - (natRepr n).length) ++ natRepr n

/-- Python's format spec `0{w}d` on an arbitrary integer: for negative
numbers the sign is printed first and the zero padding comes after it. -/
def padInt (w : ℕ) (z : ℤ) : String :=
  if z < 0 then "-" ++ zeros (w - 1 - (natRepr z.natAbs).length) ++ natRepr z.natAbs
  else padNat w z.toNat

/-- `VideoClipper.format_time` (src/video_clipper.py lines 38-43):
`hours = int(seconds // 3600)`, `minutes = int((seconds % 3600) // 60)`,
`secs = int(seconds % 60)`, rendered as three 2-zero-padded fields joined
by colons.  Floor division already yields an integral value, so `int()`
is exact on the first two fields; on the third it truncates toward zero. -/
def format_time (s : ℚ) : String :=
  padInt 2 ⌊s / 3600⌋ ++ ":" ++ padInt 2 ⌊qmod s 3600 / 60⌋ ++ ":" ++ padInt 2 (pyInt (qmod s 60))

/-- Line 62: `output_filename = f"{stem}_segment_{segment_number:03d}.mp4"`. -/
def output_filename (stem : String) (seg_num : ℕ) : String :=
  stem ++ "_segment_" ++ padNat 3 seg_num ++ ".mp4"

/-- One planned segment.  The Python loop appends the tuple
`(start_str, end_str, output_path)`; the numeric `start_time` / `end_time`
and the 1-based `segment_number` are the loop state those strings are
computed from, recorded here alongside them. -/
structure SegmentSpec where
  start_time : ℚ
  end_time : ℚ
  seg_num : ℕ
  start_str : String
  end_str : String
  output_name : String
deriving Repr, DecidableEq

/-- The `while start_time < total_duration` loop of `create_segments`
(lines 53-68).  The first argument is fuel: one unit per iteration;
`none` means the loop did not finish within the given fuel (with
`segment_duration <= 0` the Python loop never terminates, and this
function answers `none` for every fuel). -/
def createLoop (stem : String) (d : ℚ) (L : ℤ) : ℕ → ℚ → ℕ → Option (List SegmentSpec)
  | 0, start_time, _ => if start_time < d then none else some []
  | f + 1, start_time, seg_num =>
    if start_time < d then
      match createLoop stem d L f (min (start_time + (L : ℚ)) d) (seg_num + 1) with
      | none => none
      | some rest =>
        some ({ start_time := start_time
                end_time := min (start_time + (L : ℚ)) d
                seg_num := seg_num
                start_str := format_time start_time
                end_str := format_time (min (start_time + (L : ℚ)) d)
                output_name := output_filename stem seg_num } :: rest)
    else some []

/-- Fuel that provably suffices for the loop whenever `0 < L`
(each iteration advances the cursor by at least 1). -/
def defaultFuel (d : ℚ) : ℕ := (⌈d⌉).toNat + 1

/-- `VideoClipper.create_segments` (lines 45-70), with the probed duration
`d` passed in (the probe itself is an external call, modelled in `run`
below): starting from `start_time = 0`, `segment_number = 1`, collect
segments until the cursor reaches `d`. -/
def create_segments (stem : String) (d : ℚ) (L : ℤ) : Option (List SegmentSpec) :=
  createLoop stem d L (defaultFuel d) 0 1

/-- External side effects of one run, in order: the `args.duration <= 0`
validation in `main` (line 148, modelled as an event so that its position
relative to the real side effects is visible), the `output_dir.mkdir` in
`VideoClipper.__init__` (line 21), each `ffprobe` spawn in
`get_video_duration` (line 31), and each `ffmpeg` spawn for a segment
(line 108, carrying the 1-based segment index). -/
inductive Event where
  | validateDuration
  | mkdirOutput
  | probe
  | extract (seg_num : ℕ)
deriving Repr, DecidableEq

/-- The environment a run executes against: whether the input file exists,
what `ffprobe` reports (`none` = nonzero exit status or unparsable
output, both raised as `RuntimeError`), and whether the `ffmpeg`
extraction of segment `i` exits with status 0. -/
structure Env where
  fileExists : Bool
  probeResult : Option ℚ
  extractOk : ℕ → Bool

/-- The `for i, (start, end, output_path) in enumerate(segments, 1)` loop
of `split_video` (lines 95-113): spawn ffmpeg for each segment in order;
on the first failure print the error and `return` (so no later segment is
attempted and nothing is cleaned up).  Yields the events, the output
files successfully produced, and whether the loop ran to completion. -/
def extractLoop (env : Env) : List SegmentSpec → ℕ → List Event × List String × Bool
  | [], _ => ([], [], true)
  | s :: rest, i =>
    if env.extractOk i then
      ((Event.extract i) :: (extractLoop env rest (i + 1)).1,
       s.output_name :: (extractLoop env rest (i + 1)).2.1,
       (extractLoop env rest (i + 1)).2.2)
    else ([Event.extract i], [], false)

/-- One whole run of the program: `main` (lines 118-157) calling
`VideoClipper.__init__` and `split_video` (lines 72-115).  Returns
`some (exit code, event trace, output files produced)`; `none` models a
run that never terminates (only possible if the planning loop diverges,
which validation rules out).  Control flow mirrored from the source:
duration validated first (exit 1 if `<= 0`); missing input file raises,
caught in `main` (exit 1); `split_video` probes once directly (line 81)
and a second time inside `create_segments` (line 50); a dry run stops
after printing the plan; otherwise the extraction loop runs, and
`split_video` returns normally even when an extraction failed, so the
process exits 0. -/
def run (env : Env) (L : ℤ) (dry : Bool) (stem : String) :
    Option (ℕ × List Event × List String) :=
  if L ≤ 0 then some (1, [Event.validateDuration], [])
  else if env.fileExists = false then some (1, [Event.validateDuration], [])
  else
    match env.probeResult with
    | none => some (1, [Event.validateDuration, Event.mkdirOutput, Event.probe], [])
    | some d =>
      match create_segments stem d L with
      | none => none
      | some segs =>
        if dry then
          some (0, [Event.validateDuration, Event.mkdirOutput, Event.probe, Event.probe], [])
        else
          some (0, [Event.validateDuration, Event.mkdirOutput, Event.probe, Event.probe]
                     ++ (extractLoop env segs 1).1,
                (extractLoop env segs 1).2.1)

/-- Modelled from the spec, for comparison with `format_time`: a pure
function rendering `HH:MM:SS` with each field zero-padded to two digits,
truncating sub-unit remainders: `hours = floor (seconds / 3600)`,
`minutes = floor ((seconds mod 3600) / 60)`, `secs = floor (seconds mod 60)`,
where `mod` is the real remainder operation. -/
def formatTimestamp_spec (s : ℚ) : String :=
  padNat 2 (⌊s / 3600⌋).toNat ++ ":" ++ padNat 2 (⌊qmod s 3600 / 60⌋).toNat
    ++ ":" ++ padNat 2 (⌊qmod s 60⌋).toNat

/-- Invariant relating a suffix of the planning loop's output to the loop
state it was produced from: `Tiles stem d L start i segs` says `segs` is
exactly what the while loop emits when entered with cursor `start` and
counter `i`. -/
def Tiles (stem : String) (d : ℚ) (L : ℤ) : ℚ → ℕ → List SegmentSpec → Prop
  | start, _, [] => ¬ start < d
  | start, i, s :: rest =>
    s.start_time = start ∧ s.end_time = min (start + (L : ℚ)) d ∧ s.seg_num = i ∧
    s.start_str = format_time start ∧ s.end_str = format_time s.end_time ∧
    s.output_name = output_filename stem i ∧ start < d ∧ Tiles stem d L s.end_time (i + 1) rest

end VideoClipper

namespace VideoClipper

/-! Arithmetic facts about the Python remainder and truncation operators. -/

theorem qmod_eq_mul_fract {a b : ℚ} (hb : b ≠ 0) : qmod a b = b * Int.fract (a / b) := by
  unfold qmod
  rw [Int.fract, mul_sub, mul_div_cancel₀ _ hb]

theorem qmod_nonneg (a : ℚ) {b : ℚ} (hb : 0 < b) : 0 ≤ qmod a b := by
  rw [qmod_eq_mul_fract hb.ne.symm]
  exact mul_nonneg hb.le (Int.fract_nonneg _)

theorem qmod_lt (a : ℚ) {b : ℚ} (hb : 0 < b) : qmod a b < b := by
  rw [qmod_eq_mul_fract hb.ne.symm]
  calc b * Int.fract (a / b) < b * 1 := by
        exact mul_lt_mul_of_pos_left (Int.fract_lt_one _) hb
    _ = b := mul_one b

theorem pyInt_eq_floor {q : ℚ} (hq : 0 ≤ q) : pyInt q = ⌊q⌋ := by
  unfold pyInt
  rw [Int.tdiv_eq_ediv (Rat.num_nonneg.mpr hq) (Int.ofNat_nonneg _), Rat.floor_def]

theorem padInt_eq_padNat {w : ℕ} {z : ℤ} (hz : 0 ≤ z) : padInt w z = padNat w z.toNat := by
  unfold padInt
  rw [if_neg (not_lt.mpr hz)]

/-! Decimal representation machinery. -/

theorem toDigitsRev_zero (f : ℕ) : toDigitsRev f 0 = [] := by
  cases f <;> simp [toDigitsRev]

theorem toDigitsRev_congr : ∀ f g n, n ≤ f → n ≤ g → toDigitsRev f n = toDigitsRev g n := by
  intro f
  induction f with
  | zero =>
    intro g n hf _
    interval_cases n
    exact (toDigitsRev_zero g).symm
  | succ f ih =>
    intro g n hf hg
    match g with
    | 0 =>
      interval_cases n
      exact toDigitsRev_zero (f + 1)
    | g + 1 =>
      by_cases hn : n = 0
      · subst hn; simp [toDigitsRev]
      · have hdf : n / 10 ≤ f := by omega
        have hdg : n / 10 ≤ g := by omega
        simp only [toDigitsRev, if_neg hn]
        rw [ih g (n / 10) hdf hdg]

theorem toDigitsRev_one_digit {n : ℕ} (h1 : 1 ≤ n) (h9 : n ≤ 9) :
    toDigitsRev n n = [n] := by
  match n, h1 with
  | m + 1, _ =>
    have hd : (m + 1) / 10 = 0 := Nat.div_eq_of_lt (by omega)
    simp only [toDigitsRev, if_neg (Nat.succ_ne_zero m), hd, toDigitsRev_zero]
    rw [Nat.mod_eq_of_lt (by omega)]

theorem toDigitsRev_two_digits {n : ℕ} (h1 : 10 ≤ n) (h9 : n ≤ 99) :
    toDigitsRev n n = [n % 10, n / 10] := by
  match n, h1 with
  | m + 1, _ =>
    have hq1 : 1 ≤ (m + 1) / 10 := by omega
    have hq9 : (m + 1) / 10 ≤ 9 := by omega
    have hqm : (m + 1) / 10 ≤ m := by omega
    simp only [toDigitsRev, if_neg (Nat.succ_ne_zero m)]
    rw [toDigitsRev_congr m ((m + 1) / 10) ((m + 1) / 10) hqm le_rfl,
      toDigitsRev_one_digit hq1 hq9]

theorem toDigitsRev_three_digits {n : ℕ} (h1 : 100 ≤ n) (h9 : n ≤ 999) :
    toDigitsRev n n = [n % 10, n / 10 % 10, n / 10 / 10] := by
  match n, h1 with
  | m + 1, _ =>
    have hq1 : 10 ≤ (m + 1) / 10 := by omega
    have hq9 : (m + 1) / 10 ≤ 99 := by omega
    have hqm : (m + 1) / 10 ≤ m := by omega
    simp only [toDigitsRev, if_neg (Nat.succ_ne_zero m)]
    rw [toDigitsRev_congr m ((m + 1) / 10) ((m + 1) / 10) hqm le_rfl,
      toDigitsRev_two_digits hq1 hq9]

theorem natRepr_eq_of_pos {n : ℕ} (hn : n ≠ 0) :
    natRepr n = String.mk ((toDigitsRev n n).reverse.map Nat.digitChar) := by
  unfold natRepr
  rw [if_neg hn]

theorem padNat_data (w n : ℕ) :
    (padNat w n).data = List.replicate (w - (natRepr n).length) ('0') ++ (natRepr n).data := by
  unfold padNat zeros
  rw [String.data_append]

theorem padNat3_data {n : ℕ} (h1 : 1 ≤ n) (h9 : n ≤ 999) :
    (padNat 3 n).data =
      [Nat.digitChar (n / 100), Nat.digitChar (n / 10 % 10), Nat.digitChar (n % 10)] := by
  rcases (by omega :
      1 ≤ n ∧ n ≤ 9 ∨ 10 ≤ n ∧ n ≤ 99 ∨ 100 ≤ n ∧ n ≤ 999) with ⟨ha, hb⟩ | ⟨ha, hb⟩ | ⟨ha, hb⟩
  · have hrepr : natRepr n = String.mk [Nat.digitChar n] := by
      rw [natRepr_eq_of_pos (by omega), toDigitsRev_one_digit ha hb]
      simp
    have h100 : n / 100 = 0 := by omega
    have h10 : n / 10 % 10 = 0 := by omega
    have hmod : n % 10 = n := by omega
    rw [padNat_data, hrepr, h100, h10, hmod]
    simp [List.replicate, Nat.digitChar]
  · have hrepr : natRepr n = String.mk [Nat.digitChar (n / 10), Nat.digitChar (n % 10)] := by
      rw [natRepr_eq_of_pos (by omega), toDigitsRev_two_digits ha hb]
      simp
    have h100 : n / 100 = 0 := by omega
    have h10 : n / 10 % 10 = n / 10 := by omega
    rw [padNat_data, hrepr, h100, h10]
    simp [List.replicate, Nat.digitChar]
  · have hrepr : natRepr n =
        String.mk [Nat.digitChar (n / 100), Nat.digitChar (n / 10 % 10), Nat.digitChar (n % 10)] := by
      rw [natRepr_eq_of_pos (by omega), toDigitsRev_three_digits ha hb]
      simp [Nat.div_div_eq_div_mul]
    rw [padNat_data, hrepr]
    simp

theorem digitChar_lt {a b : ℕ} (hab : a < b) (hb : b ≤ 9) :
    Nat.digitChar a < Nat.digitChar b := by
  have h : ∀ a, a < 10 → ∀ b, b < 10 → a < b → Nat.digitChar a < Nat.digitChar b := by decide
  exact h a (by omega) b (by omega) hab

theorem lex_append_of_length_eq {r : Char → Char → Prop} :
    ∀ {a b : List Char}, List.Lex r a b → ∀ (s t : List Char), a.length = b.length →
      List.Lex r (a ++ s) (b ++ t) := by
  intro a b h
  induction h with
  | nil => intro s t hlen; simp at hlen
  | cons _ ih =>
    intro s t hlen
    exact List.Lex.cons (ih s t (by simpa using hlen))
  | rel hr => intro s t _; exact List.Lex.rel hr

theorem padNat3_lex {a b : ℕ} (h1 : 1 ≤ a) (hab : a < b) (hb : b ≤ 999) :
    List.Lex (· < ·) (padNat 3 a).data (padNat 3 b).data := by
  rw [padNat3_data h1 (by omega), padNat3_data (by omega) hb]
  rcases (by omega :
      a / 100 < b / 100 ∨
        a / 100 = b / 100 ∧ a / 10 % 10 < b / 10 % 10 ∨
          a / 100 = b / 100 ∧ a / 10 % 10 = b / 10 % 10 ∧ a % 10 < b % 10)
    with hc | ⟨he, hc⟩ | ⟨he, he2, hc⟩
  · exact List.Lex.rel (digitChar_lt hc (by omega))
  · rw [he]
    exact List.Lex.cons (List.Lex.rel (digitChar_lt hc (by omega)))
  · rw [he, he2]
    exact List.Lex.cons (List.Lex.cons (List.Lex.rel (digitChar_lt hc (by omega))))

theorem output_filename_lt {stem : String} {a b : ℕ} (h1 : 1 ≤ a) (hab : a < b)
    (hb : b ≤ 999) : output_filename stem a < output_filename stem b := by
  rw [String.lt_iff_toList_lt]
  show List.Lex (· < ·) (output_filename stem a).data (output_filename stem b).data
  unfold output_filename
  simp only [String.data_append, List.append_assoc]
  apply List.Lex.append_left
  apply List.Lex.append_left
  exact lex_append_of_length_eq (padNat3_lex h1 hab hb) _ _
    (by rw [padNat3_data h1 (by omega), padNat3_data (by omega) hb]; rfl)

/-! Soundness and termination of the planning loop. -/

theorem createLoop_sound {stem : String} {d : ℚ} {L : ℤ} :
    ∀ (f : ℕ) (start : ℚ) (i : ℕ) (segs : List SegmentSpec),
      createLoop stem d L f start i = some segs → Tiles stem d L start i segs := by
  intro f
  induction f with
  | zero =>
    intro start i segs h
    by_cases hd : start < d
    · simp [createLoop, hd] at h
    · simp only [createLoop, if_neg hd, Option.some.injEq] at h
      subst h
      exact hd
  | succ f ih =>
    intro start i segs h
    by_cases hd : start < d
    · rw [createLoop, if_pos hd] at h
      cases hrec : createLoop stem d L f (min (start + (L : ℚ)) d) (i + 1) with
      | none => rw [hrec] at h; cases h
      | some rest =>
        rw [hrec] at h
        simp only [Option.some.injEq] at h
        subst h
        exact ⟨rfl, rfl, rfl, rfl, rfl, rfl, hd, ih _ _ _ hrec⟩
    · simp only [createLoop, if_neg hd, Option.some.injEq] at h
      subst h
      exact hd

theorem createLoop_isSome {stem : String} {d : ℚ} {L : ℤ} (hL : 0 < L) :
    ∀ (f : ℕ) (start : ℚ) (i : ℕ), (⌈d - start⌉).toNat ≤ f →
      ∃ segs, createLoop stem d L f start i = some segs := by
  intro f
  induction f with
  | zero =>
    intro start i hf
    have hd : ¬ start < d := by
      intro hlt
      have h1 : 0 < ⌈d - start⌉ := Int.ceil_pos.mpr (sub_pos.mpr hlt)
      omega
    exact ⟨[], by simp [createLoop, hd]⟩
  | succ f ih =>
    intro start i hf
    by_cases hd : start < d
    · have hstep : (⌈d - min (start + (L : ℚ)) d⌉).toNat ≤ f := by
        rcases le_or_lt d (start + (L : ℚ)) with hm | hm
        · rw [min_eq_right hm]
          simp
        · rw [min_eq_left hm.le]
          have hsub : d - (start + (L : ℚ)) = d - start - ((L : ℤ) : ℚ) := by ring
          rw [hsub, Int.ceil_sub_int]
          have h1 : 0 < ⌈d - start⌉ := Int.ceil_pos.mpr (sub_pos.mpr hd)
          omega
      obtain ⟨segs, hsegs⟩ := ih (min (start + (L : ℚ)) d) (i + 1) hstep
      refine ⟨{ start_time := start
                end_time := min (start + (L : ℚ)) d
                seg_num := i
                start_str := format_time start
                end_str := format_time (min (start + (L : ℚ)) d)
                output_name := output_filename stem i } :: segs, ?_⟩
      rw [createLoop, if_pos hd, hsegs]
    · exact ⟨[], by simp [createLoop, hd]⟩

theorem createLoop_none_of_nonpos {stem : String} {d : ℚ} {L : ℤ} (hL : L ≤ 0) :
    ∀ (f : ℕ) (start : ℚ) (i : ℕ), start < d → createLoop stem d L f start i = none := by
  intro f
  induction f with
  | zero => intro start i hd; simp [createLoop, hd]
  | succ f ih =>
    intro start i hd
    have hle : start + (L : ℚ) ≤ start := by
      have : ((L : ℤ) : ℚ) ≤ 0 := by exact_mod_cast hL
      linarith
    have hlt : min (start + (L : ℚ)) d < d := by
      rw [min_eq_left (le_trans hle hd.le)]
      exact lt_of_le_of_lt hle hd
    rw [createLoop, if_pos hd, ih _ _ hlt]

theorem create_segments_tiles {stem : String} {d : ℚ} {L : ℤ} {segs : List SegmentSpec}
    (h : create_segments stem d L = some segs) : Tiles stem d L 0 1 segs :=
  createLoop_sound _ _ _ _ h

theorem create_segments_isSome {stem : String} {d : ℚ} {L : ℤ} (hL : 0 < L) :
    ∃ segs, create_segments stem d L = some segs := by
  apply createLoop_isSome hL
  rw [sub_zero]
  exact Nat.le_succ _

theorem create_segments_of_nonpos_duration {stem : String} {d : ℚ} {L : ℤ} (hd : d ≤ 0) :
    create_segments stem d L = some [] := by
  unfold create_segments defaultFuel
  simp [createLoop, not_lt.mpr hd]

theorem create_segments_none_of_nonpos_length {stem : String} {d : ℚ} {L : ℤ}
    (hL : L ≤ 0) (hd : 0 < d) : create_segments stem d L = none :=
  createLoop_none_of_nonpos hL _ _ _ hd

/-! Consequences of the `Tiles` invariant. -/

theorem Tiles.ne_nil {stem : String} {d : ℚ} {L : ℤ} {start : ℚ} {i : ℕ}
    {segs : List SegmentSpec} (h : Tiles stem d L start i segs) (hd : start < d) :
    segs ≠ [] := by
  cases segs with
  | nil => exact absurd hd h
  | cons s rest => simp

theorem Tiles.head_start {stem : String} {d : ℚ} {L : ℤ} {start : ℚ} {i : ℕ}
    {s : SegmentSpec} {rest : List SegmentSpec} (h : Tiles stem d L start i (s :: rest)) :
    s.start_time = start := h.1

theorem Tiles.chain {stem : String} {d : ℚ} {L : ℤ} :
    ∀ {segs : List SegmentSpec} {start : ℚ} {i : ℕ}, Tiles stem d L start i segs →
      ∀ (j : ℕ) (s1 s2 : SegmentSpec), segs.get? j = some s1 → segs.get? (j + 1) = some s2 →
        s2.start_time = s1.end_time := by
  intro segs
  induction segs with
  | nil => intro start i h j s1 s2 h1 h2; simp at h1
  | cons s rest ih =>
    intro start i h j s1 s2 h1 h2
    match j with
    | 0 =>
      simp only [List.get?_cons_zero, Option.some.injEq] at h1
      subst h1
      simp only [List.get?_cons_succ] at h2
      cases rest with
      | nil => simp at h2
      | cons s2' rest2 =>
        simp only [List.get?_cons_zero, Option.some.injEq] at h2
        subst h2
        have hrest := h.2.2.2.2.2.2.2
        rw [hrest.1, h.2.1]
    | j + 1 =>
      simp only [List.get?_cons_succ] at h1 h2
      exact ih h.2.2.2.2.2.2.2 j s1 s2 h1 h2

theorem Tiles.get?_spec {stem : String} {d : ℚ} {L : ℤ} :
    ∀ {segs : List SegmentSpec} {start : ℚ} {i : ℕ}, Tiles stem d L start i segs →
      ∀ (j : ℕ) (s : SegmentSpec), segs.get? j = some s →
        s.seg_num = i + j ∧ s.output_name = output_filename stem (i + j) := by
  intro segs
  induction segs with
  | nil => intro start i h j s hj; simp at hj
  | cons s0 rest ih =>
    intro start i h j s hj
    match j with
    | 0 =>
      simp only [List.get?_cons_zero, Option.some.injEq] at hj
      subst hj
      exact ⟨h.2.2.1, h.2.2.2.2.2.1⟩
    | j + 1 =>
      simp only [List.get?_cons_succ] at hj
      have := ih h.2.2.2.2.2.2.2 j s hj
      constructor
      · rw [this.1]; omega
      · rw [this.2]; congr 1; omega

theorem Tiles.last_end {stem : String} {d : ℚ} {L : ℤ} :
    ∀ {segs : List SegmentSpec} {start : ℚ} {i : ℕ}, Tiles stem d L start i segs →
      ∀ (hne : segs ≠ []), (segs.getLast hne).end_time = d := by
  intro segs
  induction segs with
  | nil => intro start i h hne; exact absurd rfl hne
  | cons s rest ih =>
    intro start i h hne
    cases rest with
    | nil =>
      simp only [List.getLast_singleton]
      have hrest : ¬ s.end_time < d := h.2.2.2.2.2.2.2
      have hle : s.end_time ≤ d := by rw [h.2.1]; exact min_le_right _ _
      exact le_antisymm hle (not_lt.mp hrest)
    | cons s2 rest2 =>
      rw [List.getLast_cons (by simp)]
      exact ih h.2.2.2.2.2.2.2 (by simp)

theorem Tiles.last_spec {stem : String} {d : ℚ} {L : ℤ} :
    ∀ {segs : List SegmentSpec} {start : ℚ} {i : ℕ}, Tiles stem d L start i segs →
      ∀ (hne : segs ≠ []), ∃ k : ℕ,
        (segs.getLast hne).start_time = start + (k : ℚ) * (L : ℚ) ∧
        (segs.getLast hne).end_time = min (start + (k : ℚ) * (L : ℚ) + (L : ℚ)) d ∧
        (segs.getLast hne).start_time < d := by
  intro segs
  induction segs with
  | nil => intro start i h hne; exact absurd rfl hne
  | cons s rest ih =>
    intro start i h hne
    cases rest with
    | nil =>
      refine ⟨0, ?_, ?_, ?_⟩
      · simp [List.getLast_singleton, h.1]
      · simp only [List.getLast_singleton]
        rw [h.2.1]
        norm_num
      · simp [List.getLast_singleton, h.1, h.2.2.2.2.2.2.1]
    | cons s2 rest2 =>
      have hrest := h.2.2.2.2.2.2.2
      have hlt : s.end_time < d := hrest.2.2.2.2.2.2.1
      have hmin : min (start + (L : ℚ)) d = start + (L : ℚ) := by
        rcases min_cases (start + (L : ℚ)) d with ⟨he, _⟩ | ⟨he, hcmp⟩
        · exact he
        · rw [h.2.1, he] at hlt; exact absurd hlt (lt_irrefl d)
      obtain ⟨k, hk1, hk2, hk3⟩ := ih hrest (by simp)
      rw [List.getLast_cons (by simp)]
      refine ⟨k + 1, ?_, ?_, ?_⟩
      · rw [hk1, h.2.1, hmin]; push_cast; ring
      · rw [hk2, h.2.1, hmin]; congr 1; push_cast; ring
      · exact hk3


theorem Tiles.length_eq {stem : String} {d : ℚ} {L : ℤ} (hL : 0 < L) :
    ∀ {segs : List SegmentSpec} {start : ℚ} {i : ℕ}, Tiles stem d L start i segs →
      (segs.length : ℤ) = max 0 ⌈(d - start) / (L : ℚ)⌉ := by
  have hLq : (0 : ℚ) < (L : ℚ) := by exact_mod_cast hL
  intro segs
  induction segs with
  | nil =>
    intro start i h
    have hd : d ≤ start := not_lt.mp h
    have hcl : ⌈(d - start) / (L : ℚ)⌉ ≤ 0 := by
      apply Int.ceil_le.mpr
      push_cast
      apply div_nonpos_of_nonpos_of_nonneg (by linarith) hLq.le
    simp only [List.length_nil, Nat.cast_zero]
    rw [max_eq_left hcl]
  | cons s rest ih =>
    intro start i h
    have hd : start < d := h.2.2.2.2.2.2.1
    have hrest := h.2.2.2.2.2.2.2
    rcases le_or_lt d (start + (L : ℚ)) with hm | hm
    · have hmin : min (start + (L : ℚ)) d = d := min_eq_right hm
      have hrest0 : Tiles stem d L d (i + 1) rest := by
        rw [h.2.1, hmin] at hrest; exact hrest
      have hnil : rest = [] := by
        cases rest with
        | nil => rfl
        | cons s2 rest2 => exact absurd hrest0.2.2.2.2.2.2.1 (lt_irrefl d)
      subst hnil
      have h1 : ⌈(d - start) / (L : ℚ)⌉ = 1 := by
        have hpos : 0 < ⌈(d - start) / (L : ℚ)⌉ :=
          Int.ceil_pos.mpr (div_pos (sub_pos.mpr hd) hLq)
        have hle1 : ⌈(d - start) / (L : ℚ)⌉ ≤ 1 := by
          apply Int.ceil_le.mpr
          push_cast
          exact (div_le_one hLq).mpr (by linarith)
        omega
      rw [h1]
      simp
    · have hmin : min (start + (L : ℚ)) d = start + (L : ℚ) := min_eq_left hm.le
      have hrest0 : Tiles stem d L (start + (L : ℚ)) (i + 1) rest := by
        rw [h.2.1, hmin] at hrest; exact hrest
      have hlen := ih hrest0
      have hstep : (d - (start + (L : ℚ))) / (L : ℚ) = (d - start) / (L : ℚ) - 1 := by
        have hsub : d - (start + (L : ℚ)) = (d - start) - (L : ℚ) := by ring
        rw [hsub, sub_div, div_self hLq.ne.symm]
      rw [hstep, Int.ceil_sub_one] at hlen
      have hge2 : 1 < ⌈(d - start) / (L : ℚ)⌉ := by
        rw [Int.lt_ceil]
        push_cast
        exact (one_lt_div hLq).mpr (by linarith)
      rw [max_eq_right (by omega)] at hlen
      rw [max_eq_right (by omega)]
      simp only [List.length_cons]
      push_cast
      omega

/-! The extraction loop of `split_video`. -/

theorem extractLoop_events {env : Env} :
    ∀ (segs : List SegmentSpec) (i : ℕ) (e : Event), e ∈ (extractLoop env segs i).1 →
      ∃ j, i ≤ j ∧ e = Event.extract j := by
  intro segs
  induction segs with
  | nil => intro i e he; simp [extractLoop] at he
  | cons s rest ih =>
    intro i e he
    by_cases hok : env.extractOk i
    · simp only [extractLoop, if_pos hok, List.mem_cons] at he
      rcases he with he | he
      · exact ⟨i, le_rfl, he⟩
      · obtain ⟨j, hij, hej⟩ := ih (i + 1) e he
        exact ⟨j, by omega, hej⟩
    · simp only [extractLoop, if_neg hok, List.mem_cons, List.not_mem_nil, or_false] at he
      exact ⟨i, le_rfl, he⟩

theorem extractLoop_firstFail {env : Env} :
    ∀ (segs : List SegmentSpec) (i k : ℕ), i ≤ k → k < i + segs.length →
      env.extractOk k = false → (∀ j, i ≤ j → j < k → env.extractOk j = true) →
      extractLoop env segs i =
        ((List.range' i (k - i + 1)).map Event.extract,
         (segs.take (k - i)).map (fun s => s.output_name), false) := by
  intro segs
  induction segs with
  | nil => intro i k hik hk hfail hok; simp at hk; omega
  | cons s rest ih =>
    intro i k hik hk hfail hok
    by_cases hi : i = k
    · subst hi
      have hnotok : ¬ env.extractOk i := by simp [hfail]
      simp [extractLoop, hnotok, List.range']
    · have hoki : env.extractOk i = true := hok i le_rfl (by omega)
      have hki : k - i = (k - (i + 1)) + 1 := by omega
      simp only [extractLoop, hoki, if_true]
      rw [ih (i + 1) k (by omega) (by simp only [List.length_cons] at hk; omega) hfail
        (fun j h1 h2 => hok j (by omega) h2)]
      refine Prod.ext ?_ (Prod.ext ?_ rfl)
      · show Event.extract i :: (List.range' (i + 1) (k - (i + 1) + 1)).map Event.extract =
          (List.range' i (k - i + 1)).map Event.extract
        rw [hki]
        rfl
      · show s.output_name :: (rest.take (k - (i + 1))).map (fun s => s.output_name) =
          ((s :: rest).take (k - i)).map (fun s => s.output_name)
        rw [hki]
        rfl

/-! Unfolding the whole-run model under each of the validation outcomes. -/

theorem run_nonpos_duration {env : Env} {L : ℤ} {dry : Bool} {stem : String} (hL : L ≤ 0) :
    run env L dry stem = some (1, [Event.validateDuration], []) := by
  simp [run, hL]

theorem run_valid_dry {env : Env} {L : ℤ} {stem : String} {d : ℚ} (hL : 0 < L)
    (hfe : env.fileExists = true) (hpr : env.probeResult = some d) :
    run env L true stem =
      some (0, [Event.validateDuration, Event.mkdirOutput, Event.probe, Event.probe], []) := by
  obtain ⟨segs, hsegs⟩ := @create_segments_isSome stem d L hL
  simp [run, not_le.mpr hL, hfe, hpr, hsegs]

theorem run_valid_wet {env : Env} {L : ℤ} {stem : String} {d : ℚ} {segs : List SegmentSpec}
    (hL : 0 < L) (hfe : env.fileExists = true) (hpr : env.probeResult = some d)
    (hsegs : create_segments stem d L = some segs) :
    run env L false stem =
      some (0, [Event.validateDuration, Event.mkdirOutput, Event.probe, Event.probe]
                 ++ (extractLoop env segs 1).1,
            (extractLoop env segs 1).2.1) := by
  simp [run, not_le.mpr hL, hfe, hpr, hsegs]

/-! The claims. -/

/-- C1: for every totalDuration > 0 and every positive integer segmentLength,
the plan produced by the segment planner exactly tiles [0, totalDuration]:
the first spec starts at 0, the end of each spec equals the start of the
next (no gaps, no overlaps), and the last spec's end equals totalDuration
exactly. -/
theorem C1_plan_tiles (stem : String) (d : ℚ) (L : ℤ) (hd : 0 < d) (hL : 0 < L) :
    ∃ segs : List SegmentSpec, create_segments stem d L = some segs ∧
      ∃ hne : segs ≠ [],
        (segs.head hne).start_time = 0 ∧
        (∀ (j : ℕ) (s1 s2 : SegmentSpec), segs.get? j = some s1 →
          segs.get? (j + 1) = some s2 → s1.end_time = s2.start_time) ∧
        (segs.getLast hne).end_time = d := by
  obtain ⟨segs, hsegs⟩ := @create_segments_isSome stem d L hL
  have ht := create_segments_tiles hsegs
  have hne : segs ≠ [] := ht.ne_nil hd
  refine ⟨segs, hsegs, hne, ?_, ?_, ht.last_end hne⟩
  · cases segs with
    | nil => exact absurd rfl hne
    | cons s rest => exact ht.head_start
  · intro j s1 s2 h1 h2
    exact (ht.chain j s1 s2 h1 h2).symm

/-- C1 witness at totalDuration 100, segmentLength 30. -/
theorem C1_plan_tiles_witness :
    (0 : ℚ) < 100 ∧ (0 : ℤ) < 30 ∧
    (∃ segs : List SegmentSpec, create_segments ("v") 100 30 = some segs ∧
      ∃ hne : segs ≠ [],
        (segs.head hne).start_time = 0 ∧
        (∀ (j : ℕ) (s1 s2 : SegmentSpec), segs.get? j = some s1 →
          segs.get? (j + 1) = some s2 → s1.end_time = s2.start_time) ∧
        (segs.getLast hne).end_time = 100) :=
  ⟨by norm_num, by norm_num, C1_plan_tiles ("v") 100 30 (by norm_num) (by norm_num)⟩

/-- C2: for totalDuration d > 0 and positive integer segmentLength L the
planner returns exactly ceil (d / L) segment specs, and for d <= 0 it
returns the empty plan. -/
theorem C2_segment_count (stem : String) (d : ℚ) (L : ℤ) (hL : 0 < L) :
    (0 < d → ∃ segs : List SegmentSpec, create_segments stem d L = some segs ∧
      (segs.length : ℤ) = ⌈d / ((L : ℤ) : ℚ)⌉) ∧
    (d ≤ 0 → create_segments stem d L = some []) := by
  constructor
  · intro hd
    have hLq : (0 : ℚ) < ((L : ℤ) : ℚ) := by exact_mod_cast hL
    obtain ⟨segs, hsegs⟩ := @create_segments_isSome stem d L hL
    refine ⟨segs, hsegs, ?_⟩
    rw [Tiles.length_eq hL (create_segments_tiles hsegs), sub_zero,
      max_eq_right (Int.ceil_pos.mpr (div_pos hd hLq)).le]
  · exact fun hd => create_segments_of_nonpos_duration hd

/-- C2 witness: 100 / 30 gives 4 segments, and duration 0 gives none. -/
theorem C2_segment_count_witness :
    (0 : ℤ) < 30 ∧
    (∃ segs : List SegmentSpec, create_segments ("v") 100 30 = some segs ∧
      (segs.length : ℤ) = ⌈(100 : ℚ) / (((30 : ℤ) : ℤ) : ℚ)⌉) ∧
    create_segments ("v") 0 30 = some [] :=
  ⟨by norm_num, (C2_segment_count ("v") 100 30 (by norm_num)).1 (by norm_num),
   (C2_segment_count ("v") 0 30 (by norm_num)).2 (by norm_num)⟩

/-- C3: for every totalDuration > 0 and positive integer segmentLength, the
final segment's length is totalDuration mod segmentLength when that
remainder is nonzero and exactly segmentLength otherwise; it is never
zero-length and never longer than segmentLength. -/
theorem C3_final_segment_length (stem : String) (d : ℚ) (L : ℤ) (hd : 0 < d) (hL : 0 < L) :
    ∃ (segs : List SegmentSpec) (hne : segs ≠ []), create_segments stem d L = some segs ∧
      (qmod d (L : ℚ) ≠ 0 →
        (segs.getLast hne).end_time - (segs.getLast hne).start_time = qmod d (L : ℚ)) ∧
      (qmod d (L : ℚ) = 0 →
        (segs.getLast hne).end_time - (segs.getLast hne).start_time = (L : ℚ)) ∧
      0 < (segs.getLast hne).end_time - (segs.getLast hne).start_time ∧
      (segs.getLast hne).end_time - (segs.getLast hne).start_time ≤ (L : ℚ) := by
  have hLq : (0 : ℚ) < (L : ℚ) := by exact_mod_cast hL
  obtain ⟨segs, hsegs⟩ := @create_segments_isSome stem d L hL
  have ht := create_segments_tiles hsegs
  have hne : segs ≠ [] := ht.ne_nil hd
  obtain ⟨k, hk1, hk2, hk3⟩ := ht.last_spec hne
  rw [zero_add] at hk1 hk2
  have hend : (segs.getLast hne).end_time = d := ht.last_end hne
  have hkd : (k : ℚ) * (L : ℚ) < d := by rw [hk1] at hk3; exact hk3
  have hdle : d ≤ (k : ℚ) * (L : ℚ) + (L : ℚ) := by
    by_contra hgt
    push_neg at hgt
    rw [hend, min_eq_left hgt.le] at hk2
    linarith
  refine ⟨segs, hne, hsegs, ?_⟩
  rw [hend, hk1]
  rcases eq_or_lt_of_le hdle with heq | hlt
  · have hdiv : d / (L : ℚ) = (k : ℚ) + 1 := by
      rw [heq]
      field_simp
      ring
    have hfloor : ⌊d / (L : ℚ)⌋ = (k : ℤ) + 1 := by
      rw [hdiv]
      have hcast : ((k : ℚ) + 1) = (((k : ℤ) + 1 : ℤ) : ℚ) := by push_cast; ring
      rw [hcast, Int.floor_intCast]
    have hq0 : qmod d (L : ℚ) = 0 := by
      unfold qmod
      rw [hfloor, heq]
      push_cast
      ring
    refine ⟨fun hcon => absurd hq0 hcon, fun _ => by linarith, by linarith, by linarith⟩
  · have hfloor : ⌊d / (L : ℚ)⌋ = (k : ℤ) := by
      rw [Int.floor_eq_iff]
      constructor
      · push_cast
        rw [le_div_iff₀ hLq]
        linarith
      · push_cast
        rw [div_lt_iff₀ hLq]
        linarith
    have hq : qmod d (L : ℚ) = d - (k : ℚ) * (L : ℚ) := by
      unfold qmod
      rw [hfloor]
      push_cast
      ring
    refine ⟨fun _ => hq.symm, fun h0 => ?_, by linarith, by linarith⟩
    rw [hq] at h0
    linarith

/-- C3 witness at totalDuration 100, segmentLength 30 (final segment 10 s). -/
theorem C3_final_segment_length_witness :
    (0 : ℚ) < 100 ∧ (0 : ℤ) < 30 ∧
    (∃ (segs : List SegmentSpec) (hne : segs ≠ []),
      create_segments ("v") 100 30 = some segs ∧
      (qmod 100 ((30 : ℤ) : ℚ) ≠ 0 →
        (segs.getLast hne).end_time - (segs.getLast hne).start_time = qmod 100 ((30 : ℤ) : ℚ)) ∧
      (qmod 100 ((30 : ℤ) : ℚ) = 0 →
        (segs.getLast hne).end_time - (segs.getLast hne).start_time = ((30 : ℤ) : ℚ)) ∧
      0 < (segs.getLast hne).end_time - (segs.getLast hne).start_time ∧
      (segs.getLast hne).end_time - (segs.getLast hne).start_time ≤ ((30 : ℤ) : ℚ)) :=
  ⟨by norm_num, by norm_num, C3_final_segment_length ("v") 100 30 (by norm_num) (by norm_num)⟩

/-- C4 counterexample: called directly with segmentLength 0 on a duration of
1 second, the planner neither raises an error nor produces a plan — the
while loop never terminates (the fuel-indexed embedding answers `none`,
here at the default fuel; the amended theorem shows it for every fuel).
`create_segments` contains no validation of its argument; the only
validation in the program is in `main`, before the planner is reached. -/
theorem C4_planner_no_reject_counterexample : create_segments ("v") 1 0 = none :=
  create_segments_none_of_nonpos_length (by norm_num) (by norm_num)

/-- C4 amended: for every segmentLength <= 0 the program (`main`) rejects the
request with exit code 1 before planning begins and before any external
call — the trace holds only the validation event, never a mkdir, probe or
extraction, and the value is not clamped; the planner itself, however,
performs no validation: invoked directly with segmentLength <= 0 on a
positive duration it neither rejects nor produces a plan but loops
forever (`none` for every fuel). -/
theorem C4_validation_amended :
    (∀ (env : Env) (L : ℤ) (dry : Bool) (stem : String), L ≤ 0 →
      run env L dry stem = some (1, [Event.validateDuration], [])) ∧
    (∀ (stem : String) (d : ℚ) (L : ℤ) (f : ℕ), 0 < d → L ≤ 0 →
      createLoop stem d L f 0 1 = none) := by
  constructor
  · intro env L dry stem hL
    exact run_nonpos_duration hL
  · intro stem d L f hd hL
    exact createLoop_none_of_nonpos hL f 0 1 hd

/-- C4 witness: segmentLength 0 is rejected by `main` with exit 1 and an
empty effect trace, and the planning loop diverges at every fuel tried. -/
theorem C4_validation_amended_witness :
    (0 : ℤ) ≤ 0 ∧ (0 : ℚ) < 1 ∧
    run ⟨true, some 10, fun _ => true⟩ 0 false ("v") =
      some (1, [Event.validateDuration], []) ∧
    createLoop ("v") 1 0 5 0 1 = none :=
  ⟨le_rfl, by norm_num,
   C4_validation_amended.1 ⟨true, some 10, fun _ => true⟩ 0 false ("v") le_rfl,
   C4_validation_amended.2 ("v") 1 0 5 (by norm_num) le_rfl⟩

/-- Helper: the 30-second plan for a 100-second input has four segments. -/
theorem create_segments_100_30_length :
    ∀ {segs : List SegmentSpec}, create_segments ("v") 100 30 = some segs →
      segs.length = 4 := by
  intro segs hsegs
  have hlen := Tiles.length_eq (by norm_num) (create_segments_tiles hsegs)
  rw [sub_zero] at hlen
  have hc : ⌈(100 : ℚ) / ((30 : ℤ) : ℚ)⌉ = 4 := by norm_num [Int.ceil_eq_iff]
  rw [hc, max_eq_right (by norm_num)] at hlen
  exact_mod_cast hlen

/-- C5: the code violates the claimed exit-code contract.  In a run whose
first ffmpeg extraction fails, `split_video` prints the error and
`return`s (line 113) instead of raising, so `main`'s `except` never fires
and the interpreter exits with status 0 — despite the failed extraction.
Validation and probe failures do exit 1; only extraction failures are
silently converted to success. -/
theorem C5_extraction_failure_exits_zero :
    run ⟨true, some 100, fun _ => false⟩ 30 false ("v") =
      some (0, [Event.validateDuration, Event.mkdirOutput, Event.probe, Event.probe,
                Event.extract 1], []) := by
  obtain ⟨segs, hsegs⟩ := @create_segments_isSome ("v") 100 30 (by norm_num)
  have hlen : segs.length = 4 := create_segments_100_30_length hsegs
  have hext := @extractLoop_firstFail ⟨true, some 100, fun _ => false⟩ segs 1 1 le_rfl
    (by omega) rfl (fun j h1 h2 => absurd h2 (by omega))
  rw [run_valid_wet (by norm_num) rfl rfl hsegs, hext]
  rfl

/-- C6: in every run in which the extraction of segment k is the first to
fail, no extraction after k is attempted (the trace holds no
`extract j` with j > k) and the files produced for segments before k
remain the run's output — no rollback or cleanup. -/
theorem C6_fail_fast_keeps_files (env : Env) (stem : String) (L : ℤ) (d : ℚ) (k : ℕ)
    (hL : 0 < L) (hfe : env.fileExists = true) (hpr : env.probeResult = some d)
    (hk1 : 1 ≤ k) (hkF : env.extractOk k = false)
    (hkOk : ∀ j, 1 ≤ j → j < k → env.extractOk j = true)
    (hkLen : k ≤ ((create_segments stem d L).getD []).length) :
    ∃ tr files, run env L false stem = some (0, tr, files) ∧
      (∀ j, Event.extract j ∈ tr → j ≤ k) ∧
      files = (((create_segments stem d L).getD []).take (k - 1)).map
        (fun s => s.output_name) := by
  obtain ⟨segs, hsegs⟩ := @create_segments_isSome stem d L hL
  rw [hsegs, Option.getD_some] at hkLen
  have hext := @extractLoop_firstFail env segs 1 k hk1 (by omega) hkF
    (fun j h1 h2 => hkOk j h1 h2)
  refine ⟨[Event.validateDuration, Event.mkdirOutput, Event.probe, Event.probe]
            ++ (extractLoop env segs 1).1, (extractLoop env segs 1).2.1,
          run_valid_wet hL hfe hpr hsegs, ?_, ?_⟩
  · intro j hj
    simp only [List.mem_append, List.mem_cons, List.not_mem_nil, or_false,
      reduceCtorEq, false_or] at hj
    rw [hext] at hj
    simp only [List.mem_map, List.mem_range'] at hj
    obtain ⟨a, ⟨ha1, ha2⟩, hae⟩ := hj
    cases hae
    omega
  · rw [hext, hsegs, Option.getD_some]

/-- C6 witness: 100-second input, 30-second segments, segment 2 of 4 fails;
only extractions 1 and 2 are attempted and segment 1's file remains. -/
theorem C6_fail_fast_keeps_files_witness :
    (0 : ℤ) < 30 ∧ (1 : ℕ) ≤ 2 ∧
    (Env.mk true (some 100) (fun i => decide (i < 2))).extractOk 2 = false ∧
    (∃ tr files,
      run ⟨true, some 100, fun i => decide (i < 2)⟩ 30 false ("v") = some (0, tr, files) ∧
      (∀ j, Event.extract j ∈ tr → j ≤ 2) ∧
      files = (((create_segments ("v") 100 30).getD []).take (2 - 1)).map
        (fun s => s.output_name)) := by
  refine ⟨by norm_num, by norm_num, rfl, ?_⟩
  apply C6_fail_fast_keeps_files ⟨true, some 100, fun i => decide (i < 2)⟩ ("v") 30 100 2
    (by norm_num) rfl rfl (by norm_num) rfl
  · intro j h1 h2
    exact decide_eq_true h2
  · obtain ⟨segs, hsegs⟩ := @create_segments_isSome ("v") 100 30 (by norm_num)
    rw [hsegs, Option.getD_some, create_segments_100_30_length hsegs]
    norm_num

/-- C7 counterexample: a full (dry) run against a healthy environment spawns
the duration probe twice, not once — `split_video` probes at line 81 and
`create_segments` probes again at line 50. -/
theorem C7_probe_once_counterexample :
    (run ⟨true, some 10, fun _ => true⟩ 5 true ("v")).map
        (fun r => r.2.1.count Event.probe) = some 2 ∧ (2 : ℕ) ≠ 1 := by
  constructor
  · rw [run_valid_dry (by norm_num) rfl rfl]
    rfl
  · norm_num

/-- C7 amended: each call to the duration resolver spawns exactly one
probing process, but a full run (dry or not) performs exactly two
resolutions — one directly in `split_video` and one inside
`create_segments`; the probed value itself is immutable, every later use
reads the same environment answer. -/
theorem C7_probe_twice_amended (env : Env) (L : ℤ) (dry : Bool) (stem : String) (d : ℚ)
    (hL : 0 < L) (hfe : env.fileExists = true) (hpr : env.probeResult = some d) :
    ∃ c tr files, run env L dry stem = some (c, tr, files) ∧
      tr.count Event.probe = 2 := by
  cases dry with
  | true =>
    rw [run_valid_dry hL hfe hpr]
    exact ⟨0, _, _, rfl, rfl⟩
  | false =>
    obtain ⟨segs, hsegs⟩ := @create_segments_isSome stem d L hL
    rw [run_valid_wet hL hfe hpr hsegs]
    refine ⟨0, _, _, rfl, ?_⟩
    rw [List.count_append]
    have hzero : (extractLoop env segs 1).1.count Event.probe = 0 := by
      rw [List.count_eq_zero]
      intro hmem
      obtain ⟨j, _, hj⟩ := extractLoop_events segs 1 Event.probe hmem
      cases hj
    rw [hzero]
    rfl

/-- C7 witness: a non-dry run with all extractions succeeding still probes
exactly twice. -/
theorem C7_probe_twice_amended_witness :
    (0 : ℤ) < 5 ∧
    (∃ c tr files, run ⟨true, some 10, fun _ => true⟩ 5 false ("v") = some (c, tr, files) ∧
      tr.count Event.probe = 2) :=
  ⟨by norm_num,
   C7_probe_twice_amended ⟨true, some 10, fun _ => true⟩ 5 false ("v") 10
     (by norm_num) rfl rfl⟩

/-- Helper: the 1-second plan for a 1000-second input has 1000 segments. -/
theorem create_segments_1000_1_length :
    ∀ {segs : List SegmentSpec}, create_segments ("v") 1000 1 = some segs →
      segs.length = 1000 := by
  intro segs hsegs
  have hlen := Tiles.length_eq (by norm_num) (create_segments_tiles hsegs)
  rw [sub_zero] at hlen
  have hc : ⌈(1000 : ℚ) / ((1 : ℤ) : ℚ)⌉ = 1000 := by norm_num
  rw [hc, max_eq_right (by norm_num)] at hlen
  exact_mod_cast hlen

/-- C8 counterexample: in the 1000-segment plan for a 1000-second input cut
into 1-second segments, the zero padding of the 03d format spec is
exhausted: segment 999's name "v_segment_999.mp4" does NOT sort
lexicographically before segment 1000's name "v_segment_1000.mp4"
(the character `9` sorts after `1`), although 999 comes first in the
plan. -/
theorem C8_sort_counterexample :
    ((create_segments ("v") 1000 1).getD []).length = 1000 ∧
    (((create_segments ("v") 1000 1).getD []).get? 998).map (fun s => s.output_name) =
      some ("v_segment_999.mp4") ∧
    (((create_segments ("v") 1000 1).getD []).get? 999).map (fun s => s.output_name) =
      some ("v_segment_1000.mp4") ∧
    ¬ (("v_segment_999.mp4" : String) < "v_segment_1000.mp4") := by
  obtain ⟨segs, hsegs⟩ := @create_segments_isSome ("v") 1000 1 (by norm_num)
  have ht := create_segments_tiles hsegs
  have hlen : segs.length = 1000 := create_segments_1000_1_length hsegs
  rw [hsegs, Option.getD_some]
  have h998 : 998 < segs.length := by omega
  have h999 : 999 < segs.length := by omega
  refine ⟨hlen, ?_, ?_, ?_⟩
  · rw [List.get?_eq_get h998, Option.map_some',
      (ht.get?_spec 998 (segs.get ⟨998, h998⟩) (List.get?_eq_get h998)).2]
    decide
  · rw [List.get?_eq_get h999, Option.map_some',
      (ht.get?_spec 999 (segs.get ⟨999, h999⟩) (List.get?_eq_get h999)).2]
    decide
  · rw [String.lt_iff_toList_lt]
    decide

/-- C8 amended: each spec's outputName is the input's base name followed by
the sequence number rendered with the 03d format spec (zero-padded to
width 3), and in every plan of at most 999 segments — while the padding
width is not exhausted — the names of earlier specs sort strictly before
the names of later specs.  (The claim fails for plans of 1000 or more
segments, where the fourth digit breaks the ordering.) -/
theorem C8_names_sorted_amended (stem : String) (d : ℚ) (L : ℤ) (segs : List SegmentSpec)
    (_hL : 0 < L) (hsegs : create_segments stem d L = some segs)
    (hlen : segs.length ≤ 999) :
    (∀ (j : ℕ) (s : SegmentSpec), segs.get? j = some s →
      s.output_name = output_filename stem (j + 1)) ∧
    (∀ (i j : ℕ) (si sj : SegmentSpec), segs.get? i = some si → segs.get? j = some sj →
      i < j → si.output_name < sj.output_name) := by
  have ht := create_segments_tiles hsegs
  constructor
  · intro j s hj
    rw [(ht.get?_spec j s hj).2]
    congr 1
    omega
  · intro i j si sj hi hj hij
    have hjlen : j < segs.length := by
      rcases List.get?_eq_some.mp hj with ⟨h, _⟩
      exact h
    rw [(ht.get?_spec i si hi).2, (ht.get?_spec j sj hj).2]
    exact output_filename_lt (by omega) (by omega) (by omega)

/-- C8 witness: the four-segment plan (100 s into 30 s pieces) has its names
in strict lexicographic plan order. -/
theorem C8_names_sorted_amended_witness :
    (0 : ℤ) < 30 ∧
    (∃ segs, create_segments ("v") 100 30 = some segs ∧ segs.length ≤ 999 ∧
      (∀ (i j : ℕ) (si sj : SegmentSpec), segs.get? i = some si → segs.get? j = some sj →
        i < j → si.output_name < sj.output_name)) := by
  refine ⟨by norm_num, ?_⟩
  obtain ⟨segs, hsegs⟩ := @create_segments_isSome ("v") 100 30 (by norm_num)
  have hlen : segs.length ≤ 999 := by
    rw [create_segments_100_30_length hsegs]
    norm_num
  exact ⟨segs, hsegs, hlen,
    (C8_names_sorted_amended ("v") 100 30 segs (by norm_num) hsegs hlen).2⟩

/-- Helper to evaluate `format_time` once the three integer fields are
known. -/
theorem format_time_fields {s : ℚ} {h m sec : ℤ} (hh : ⌊s / 3600⌋ = h)
    (hm : ⌊qmod s 3600 / 60⌋ = m) (hsec : pyInt (qmod s 60) = sec) :
    format_time s = padInt 2 h ++ ":" ++ padInt 2 m ++ ":" ++ padInt 2 sec := by
  unfold format_time
  rw [hh, hm, hsec]

/-- C9: `format_time` is a pure function rendering HH:MM:SS with 2-digit
zero-padded fields computed by truncation — on nonnegative input it
agrees exactly with the spec's formula (`hours = floor (s/3600)`,
`minutes = floor ((s mod 3600)/60)`, `secs = floor (s mod 60)`); the
three quoted examples hold, and past 99 hours the hours field simply
grows to more digits instead of failing. -/
theorem C9_format_time :
    (∀ s : ℚ, 0 ≤ s → format_time s = formatTimestamp_spec s) ∧
    format_time 0 = "00:00:00" ∧ format_time 3661 = "01:01:01" ∧
    format_time 59 = "00:00:59" ∧ format_time 360000 = "100:00:00" := by
  refine ⟨?_, ?_, ?_, ?_, ?_⟩
  · intro s hs
    have h3 : 0 ≤ qmod s 60 := qmod_nonneg s (by norm_num)
    unfold format_time formatTimestamp_spec
    rw [padInt_eq_padNat (Int.floor_nonneg.mpr (div_nonneg hs (by norm_num))),
      padInt_eq_padNat (Int.floor_nonneg.mpr
        (div_nonneg (qmod_nonneg s (by norm_num)) (by norm_num))),
      pyInt_eq_floor h3, padInt_eq_padNat (Int.floor_nonneg.mpr h3)]
  · have hh : ⌊(0 : ℚ) / 3600⌋ = (0 : ℤ) := by norm_num
    have hq1 : qmod (0 : ℚ) 3600 = 0 := by unfold qmod; norm_num
    have hm : ⌊qmod (0 : ℚ) 3600 / 60⌋ = (0 : ℤ) := by rw [hq1]; norm_num
    have hq2 : qmod (0 : ℚ) 60 = 0 := by unfold qmod; norm_num
    have hs : pyInt (qmod (0 : ℚ) 60) = (0 : ℤ) := by
      rw [hq2, pyInt_eq_floor le_rfl]; norm_num
    rw [format_time_fields hh hm hs]
    decide
  · have hh : ⌊(3661 : ℚ) / 3600⌋ = (1 : ℤ) := by norm_num [Int.floor_eq_iff]
    have hq1 : qmod (3661 : ℚ) 3600 = 61 := by unfold qmod; rw [hh]; push_cast; ring
    have hm : ⌊qmod (3661 : ℚ) 3600 / 60⌋ = (1 : ℤ) := by
      rw [hq1]; norm_num [Int.floor_eq_iff]
    have hf60 : ⌊(3661 : ℚ) / 60⌋ = (61 : ℤ) := by norm_num [Int.floor_eq_iff]
    have hq2 : qmod (3661 : ℚ) 60 = 1 := by unfold qmod; rw [hf60]; push_cast; ring
    have hs : pyInt (qmod (3661 : ℚ) 60) = (1 : ℤ) := by
      rw [hq2, pyInt_eq_floor (by norm_num)]; norm_num
    rw [format_time_fields hh hm hs]
    decide
  · have hh : ⌊(59 : ℚ) / 3600⌋ = (0 : ℤ) := by norm_num [Int.floor_eq_iff]
    have hq1 : qmod (59 : ℚ) 3600 = 59 := by unfold qmod; rw [hh]; push_cast; ring
    have hm : ⌊qmod (59 : ℚ) 3600 / 60⌋ = (0 : ℤ) := by
      rw [hq1]; norm_num [Int.floor_eq_iff]
    have hf60 : ⌊(59 : ℚ) / 60⌋ = (0 : ℤ) := by norm_num [Int.floor_eq_iff]
    have hq2 : qmod (59 : ℚ) 60 = 59 := by unfold qmod; rw [hf60]; push_cast; ring
    have hs : pyInt (qmod (59 : ℚ) 60) = (59 : ℤ) := by
      rw [hq2, pyInt_eq_floor (by norm_num)]; norm_num [Int.floor_eq_iff]
    rw [format_time_fields hh hm hs]
    decide
  · have hh : ⌊(360000 : ℚ) / 3600⌋ = (100 : ℤ) := by norm_num [Int.floor_eq_iff]
    have hf36 : ⌊(360000 : ℚ) / 3600⌋ = (100 : ℤ) := hh
    have hq1 : qmod (360000 : ℚ) 3600 = 0 := by unfold qmod; rw [hf36]; push_cast; ring
    have hm : ⌊qmod (360000 : ℚ) 3600 / 60⌋ = (0 : ℤ) := by rw [hq1]; norm_num
    have hf60 : ⌊(360000 : ℚ) / 60⌋ = (6000 : ℤ) := by norm_num [Int.floor_eq_iff]
    have hq2 : qmod (360000 : ℚ) 60 = 0 := by unfold qmod; rw [hf60]; push_cast; ring
    have hs : pyInt (qmod (360000 : ℚ) 60) = (0 : ℤ) := by
      rw [hq2, pyInt_eq_floor le_rfl]; norm_num
    rw [format_time_fields hh hm hs]
    decide

/-- C9 witness: the spec formula instantiated at 3661 seconds. -/
theorem C9_format_time_witness :
    (0 : ℚ) ≤ 3661 ∧ format_time 3661 = formatTimestamp_spec 3661 :=
  ⟨by norm_num, C9_format_time.1 3661 (by norm_num)⟩

/-- C10 counterexample: in a dry run against an existing input the output
directory is created (`mkdirOutput` is in the trace) but only AFTER the
segment-length validation in `main` — the claim's "before any
segment-length validation" is false: `main` validates `args.duration`
(line 148) before `VideoClipper` is even constructed (line 153). -/
theorem C10_mkdir_order_counterexample :
    run ⟨true, some 100, fun _ => true⟩ 30 true ("v") =
      some (0, [Event.validateDuration, Event.mkdirOutput, Event.probe, Event.probe], []) ∧
    [Event.validateDuration, Event.mkdirOutput, Event.probe, Event.probe].indexOf
        Event.validateDuration <
      [Event.validateDuration, Event.mkdirOutput, Event.probe, Event.probe].indexOf
        Event.mkdirOutput :=
  ⟨run_valid_dry (by norm_num) rfl rfl, by decide⟩

/-- C10 amended: for every existing input file (after `main`'s
segment-length validation has passed), constructing the `VideoClipper`
creates the output directory as a side effect of construction, before any
duration probing or extraction; a dry run creates it too, even though it
performs no extraction. -/
theorem C10_mkdir_amended (env : Env) (L : ℤ) (dry : Bool) (stem : String) (d : ℚ)
    (hL : 0 < L) (hfe : env.fileExists = true) (hpr : env.probeResult = some d) :
    ∃ (rest : List Event) (files : List String),
      run env L dry stem = some (0,
        Event.validateDuration :: Event.mkdirOutput :: Event.probe :: Event.probe :: rest,
        files) ∧
      (∀ e ∈ rest, ∃ j, e = Event.extract j) ∧ (dry = true → rest = []) := by
  cases dry with
  | true =>
    rw [run_valid_dry hL hfe hpr]
    exact ⟨[], [], rfl, by simp, fun _ => rfl⟩
  | false =>
    obtain ⟨segs, hsegs⟩ := @create_segments_isSome stem d L hL
    rw [run_valid_wet hL hfe hpr hsegs]
    refine ⟨(extractLoop env segs 1).1, (extractLoop env segs 1).2.1, rfl, ?_, by simp⟩
    intro e he
    obtain ⟨j, _, hj⟩ := extractLoop_events segs 1 e he
    exact ⟨j, hj⟩

/-- C10 witness: a dry run on an existing 100-second input creates the
output directory right after validation and probes twice, extracting
nothing. -/
theorem C10_mkdir_amended_witness :
    (0 : ℤ) < 30 ∧
    (∃ (rest : List Event) (files : List String),
      run ⟨true, some 100, fun _ => true⟩ 30 true ("v") = some (0,
        Event.validateDuration :: Event.mkdirOutput :: Event.probe :: Event.probe :: rest,
        files) ∧
      (∀ e ∈ rest, ∃ j, e = Event.extract j) ∧ (true = true → rest = [])) :=
  ⟨by norm_num, C10_mkdir_amended ⟨true, some 100, fun _ => true⟩ 30 true ("v") 100
    (by norm_num) rfl rfl⟩

end VideoClipper
